import Mathlib

set_option maxHeartbeats 1000000

/-!
Verification of `font2oled.py`: a shallow embedding of the size-fitting
search (`findSize`), the glyph centering pass (`shiftRight`, `centerChar`),
the byte packing (`convert`) and the identifier sanitization inside
`output`, together with theorems about them.

The PIL image is modelled as a total function from pixel coordinates
`(x, y)` to a boolean (mode "1" pixels: `true` stands for value 255,
`false` for 0).  `im.putpixel` is a pointwise functional update.  The
external text renderer `ImageDraw.Draw(im).text(...)` is modelled as an
abstract function `draw : fontSize → charIndex → Image → Image`.
Loops of the script become structural recursions whose step order mirrors
the Python iteration order exactly.
-/

/-- Number of character slots (global `nbCharacters = 256` of the script). -/
def nbCharacters : Nat := 256

/-- Lower bound of the size search (global `minFontSize = 4`). -/
def minFontSize : Nat := 4

/-- Upper bound of the size search (global `maxFontSize = 13`). -/
def maxFontSize : Nat := 13

/-- A monochrome image: pixel at column `x`, row `y`. -/
abbrev Image := Nat → Nat → Bool

/-- Functional model of `im.putpixel((a, b), v)`. -/
def putpixel (im : Image) (a b : Nat) (v : Bool) : Image :=
  fun x y => if x = a ∧ y = b then v else im x y

/-- Fresh all-black image, as built by `Image.new("1", ..., (0,0,0))`. -/
def blankIm : Image := fun _ _ => false

/-- Zero-filling inner loop `for pixel in range(n): im.putpixel((j, i*8+pixel), 0)`,
used both by `findSize`'s cell clearing and by `shiftRight`'s else branch. -/
def zeroColAux (im : Image) (i j : Nat) : Nat → Image
  | 0 => im
  | p+1 => putpixel (zeroColAux im i j p) j (i*8 + p) false

/-- Copying inner loop of `shiftRight`:
`for pixel in range(n): im.putpixel((j, i*8+pixel), im.getpixel((j-s, i*8+pixel)))`.
Reads go to the live, partially updated image, exactly as in the script. -/
def copyColAux (im : Image) (i j s : Nat) : Nat → Image
  | 0 => im
  | p+1 =>
    let m := copyColAux im i j s p
    putpixel m j (i*8 + p) (m (j - s) (i*8 + p))

/-- Outer loop of `shiftRight`, `for j in range(7, -1, -1)`: after `k` steps the
columns `7, 6, ..., 8-k` have been processed (step `k+1` handles `j = 7-k`).
The guard `j - stride >= 0` of the script is `stride ≤ j` on naturals. -/
def shiftAux (im : Image) (i s : Nat) : Nat → Image
  | 0 => im
  | k+1 =>
    let m := shiftAux im i s k
    if s ≤ 7 - k then copyColAux m i (7 - k) s 8 else zeroColAux m i (7 - k) 8

/-- The function `shiftRight(im, i, stride)` of the script. -/
def shiftRight (im : Image) (i stride : Nat) : Image := shiftAux im i stride 8

/-- Inner counting loop of `centerChar`: number of set pixels among rows
`0..n-1` of column `j` of glyph `i`'s cell (variable `pixels`). -/
def colInkAux (im : Image) (i j : Nat) : Nat → Nat
  | 0 => 0
  | p+1 => colInkAux im i j p + (if im j (i*8 + p) then 1 else 0)

/-- Value of the script's `pixels` counter after the full 8-row loop. -/
def colInk (im : Image) (i j : Nat) : Nat := colInkAux im i j 8

/-- Column-counting loop of `centerChar`: `wsize` after scanning columns `0..n-1`,
incremented for each column with at least one set pixel. -/
def wsizeAux (im : Image) (i : Nat) : Nat → Nat
  | 0 => 0
  | j+1 => wsizeAux im i j + (if colInk im i j ≠ 0 then 1 else 0)

/-- Ink width `wsize` of glyph `i` (count of inked columns among `0..7`). -/
def wsize (im : Image) (i : Nat) : Nat := wsizeAux im i 8

/-- Guard of `centerChar`: the punctuation exception set `! , . : ; ?`,
i.e. the negation of `i!=33 and i!=44 and i!=46 and i!=58 and i!=59 and i!=63`. -/
def isException (i : Nat) : Bool :=
  i == 33 || i == 44 || i == 46 || i == 58 || i == 59 || i == 63

/-- Body of `centerChar`'s per-character loop: measure `wsize`, compute
`spaces = (8-wsize)/2` (Python 2 integer division) and shift, skipping the
exception set. -/
def centerOne (im : Image) (i : Nat) : Image :=
  if isException i then im
  else shiftRight im i ((8 - wsize im i) / 2)

/-- The per-character loop of `centerChar` after `n` iterations. -/
def centerAux (im : Image) : Nat → Image
  | 0 => im
  | i+1 => centerOne (centerAux im i) i

/-- The function `centerChar(im)` of the script (in-place mutation modelled as
returning the updated image). -/
def centerChar (im : Image) : Image := centerAux im nbCharacters

/-- Cell-clearing loop of `findSize` for character `i` after `n` columns:
`for j in range(8): for pixel in range(8): im.putpixel((j, i*8+pixel), 0)`. -/
def clearCellAux (im : Image) (i : Nat) : Nat → Image
  | 0 => im
  | j+1 => zeroColAux (clearCellAux im i j) i j 8

/-- The full cell clearing of `findSize` for character `i`. -/
def clearCell (im : Image) (i : Nat) : Image := clearCellAux im i 8

/-- Probe loop of `findSize` over rows `0..n-1`: whether some pixel in probe
column 8 of glyph `i`'s rows is set (`== 255`); the script's early `break`
only exits this inner loop, which is an 8-way disjunction. -/
def probeAux (im : Image) (i : Nat) : Nat → Bool
  | 0 => false
  | p+1 => probeAux im i p || im 8 (i*8 + p)

/-- Whether the probe column overflows for character `i`. -/
def probeSet (im : Image) (i : Nat) : Bool := probeAux im i 8

/-- One iteration of `findSize`'s per-character loop: clear the cell, draw the
character, and update the `oversized` flag when `i <= 128` and the probe
column holds ink. -/
def renderStep (draw : Nat → Nat → Image → Image) (fs : Nat)
    (st : Image × Bool) (i : Nat) : Image × Bool :=
  let im2 := draw fs i (clearCell st.1 i)
  (im2, if i ≤ 128 ∧ probeSet im2 i = true then true else st.2)

/-- The per-character loop of `findSize` after `n` characters, starting from a
fresh blank image and `oversized = False`. -/
def renderAux (draw : Nat → Nat → Image → Image) (fs : Nat) : Nat → Image × Bool
  | 0 => (blankIm, false)
  | i+1 => renderStep draw fs (renderAux draw fs i) i

/-- One full candidate pass of `findSize` at size `fs`: the resulting image and
the `oversized` flag. -/
def renderPass (draw : Nat → Nat → Image → Image) (fs : Nat) : Image × Bool :=
  renderAux draw fs nbCharacters

/-- The `while (oversized)` loop of `findSize`, indexed by the value of
`fontSize` at the top of the loop.  The guard `fontSize < minFontSize` is
tested before the decrement, so the candidate actually rendered is `fs - 1`;
`exit(-1)` is modelled as `none`, and a successful return carries the
candidate size together with the canvas. -/
def findSizeAux (draw : Nat → Nat → Image → Image) : Nat → Option (Nat × Image)
  | 0 => none
  | fs+1 =>
    if fs + 1 < minFontSize then none
    else
      let r := renderPass draw fs
      if r.2 = true then findSizeAux draw fs else some (fs, r.1)

/-- The function `findSize(fontname)` of the script, with the font/renderer
abstracted as `draw`; it starts from `fontSize = maxFontSize`. -/
def findSize (draw : Nat → Nat → Image → Image) : Option (Nat × Image) :=
  findSizeAux draw maxFontSize

/-- Accumulation of `data[i][j] |= (pixels[i][j*8 + bit] << bit)` over
`bit in range(n)`, starting from the zero initialization. -/
def byteAux (pixels : Nat → Nat → Nat) (i j : Nat) : Nat → Nat
  | 0 => 0
  | b+1 => byteAux pixels i j b ||| (pixels i (j*8 + b) <<< b)

/-- Final value of entry `data[i][j]` produced by `convert`. -/
def convertByte (pixels : Nat → Nat → Nat) (i j : Nat) : Nat :=
  byteAux pixels i j 8

/-- The function `convert(pixels)` of the script: the 8 × `nbCharacters` table
of packed bytes (each entry is touched only by its own `(i, j, bit)`
iterations, so the imperative fill is the per-entry accumulation). -/
def convert (pixels : Nat → Nat → Nat) : List (List Nat) :=
  (List.range 8).map (fun i => (List.range nbCharacters).map (convertByte pixels i))

/-- Model of `os.path.basename` for POSIX paths: the characters after the last
separator. -/
def basenameChars (l : List Char) : List Char :=
  (l.reverse.takeWhile (fun c => c != '/')).reverse

/-- Model of `os.path.splitext(...)[0]`: everything before the last dot,
unless the name has no dot or only leading dots precede it. -/
def splitextRoot (l : List Char) : List Char :=
  let rev := l.reverse
  let ext := rev.takeWhile (fun c => c != '.')
  if ext.length == rev.length then l
  else
    let rest := rev.drop (ext.length + 1)
    if rest.all (fun c => c == '.') then l else rest.reverse

/-- The character class of the pattern `'[ -:,\?]'` in `output`: by regex
semantics the unescaped hyphen makes ` -:` a range, so the class is the
codepoint range from space to colon, plus the comma and the question mark. -/
def inCharClass (c : Char) : Bool :=
  (' ' ≤ c && c ≤ ':') || c == ',' || c == '?'

/-- Identifier derivation of `output`: basename, extension dropped, then
`re.sub('[ -:,\?]', '', ...)`, which deletes every matched character. -/
def sanitizeIdent (s : String) : String :=
  String.mk ((splitextRoot (basenameChars s.data)).filter (fun c => !(inCharClass c)))

/-! Pointwise lemmas about the pixel-update loops. -/

theorem putpixel_eval (im : Image) (a b : Nat) (v : Bool) (x y : Nat) :
    putpixel im a b v x y = if x = a ∧ y = b then v else im x y := rfl

theorem putpixel_self (im : Image) (a b x y : Nat) :
    putpixel im a b (im a b) x y = im x y := by
  unfold putpixel
  split
  · next h => rw [h.1, h.2]
  · rfl

theorem zeroColAux_frame (im : Image) (i j : Nat) :
    ∀ n, n ≤ 8 → ∀ x y, (x ≠ j ∨ y < i*8 ∨ i*8 + 8 ≤ y) →
      zeroColAux im i j n x y = im x y := by
  intro n
  induction n with
  | zero => intro _ x y _; rfl
  | succ p ih =>
    intro hn x y hxy
    show (if x = j ∧ y = i*8 + p then false else zeroColAux im i j p x y) = im x y
    have hne : ¬(x = j ∧ y = i*8 + p) := by
      intro hc; obtain ⟨hc1, hc2⟩ := hc
      rcases hxy with h | h | h <;> omega
    rw [if_neg hne]
    exact ih (by omega) x y hxy

theorem zeroColAux_get (im : Image) (i j : Nat) :
    ∀ n p, p < n → zeroColAux im i j n j (i*8 + p) = false := by
  intro n
  induction n with
  | zero => intro p hp; exact absurd hp (by omega)
  | succ q ih =>
    intro p hp
    show (if j = j ∧ i*8 + p = i*8 + q then false else zeroColAux im i j q j (i*8 + p)) = false
    by_cases hpq : p = q
    · rw [if_pos ⟨rfl, by rw [hpq]⟩]
    · rw [if_neg (by intro hc; obtain ⟨-, hc2⟩ := hc; omega)]
      exact ih p (by omega)

theorem copyColAux_frame (im : Image) (i j s : Nat) :
    ∀ n, n ≤ 8 → ∀ x y, (x ≠ j ∨ y < i*8 ∨ i*8 + 8 ≤ y) →
      copyColAux im i j s n x y = im x y := by
  intro n
  induction n with
  | zero => intro _ x y _; rfl
  | succ p ih =>
    intro hn x y hxy
    show (if x = j ∧ y = i*8 + p then (copyColAux im i j s p) (j - s) (i*8 + p)
          else copyColAux im i j s p x y) = im x y
    have hne : ¬(x = j ∧ y = i*8 + p) := by
      intro hc; obtain ⟨hc1, hc2⟩ := hc
      rcases hxy with h | h | h <;> omega
    rw [if_neg hne]
    exact ih (by omega) x y hxy

theorem copyColAux_get (im : Image) (i j s : Nat) (hs : 1 ≤ s) (hsj : s ≤ j) :
    ∀ n, n ≤ 8 → ∀ p, p < n → copyColAux im i j s n j (i*8 + p) = im (j - s) (i*8 + p) := by
  intro n
  induction n with
  | zero => intro _ p hp; exact absurd hp (by omega)
  | succ q ih =>
    intro hn p hp
    show (if j = j ∧ i*8 + p = i*8 + q then (copyColAux im i j s q) (j - s) (i*8 + q)
          else copyColAux im i j s q j (i*8 + p)) = im (j - s) (i*8 + p)
    by_cases hpq : p = q
    · rw [if_pos ⟨rfl, by rw [hpq]⟩]
      rw [copyColAux_frame im i j s q (by omega) (j - s) (i*8 + q) (Or.inl (by omega))]
      rw [hpq]
    · rw [if_neg (by intro hc; obtain ⟨-, hc2⟩ := hc; omega)]
      exact ih (by omega) p (by omega)

theorem copyColAux_zero (im : Image) (i j : Nat) :
    ∀ n x y, copyColAux im i j 0 n x y = im x y := by
  intro n
  induction n with
  | zero => intro x y; rfl
  | succ p ih =>
    intro x y
    show (if x = j ∧ y = i*8 + p then (copyColAux im i j 0 p) (j - 0) (i*8 + p)
          else copyColAux im i j 0 p x y) = im x y
    split
    · next h => rw [Nat.sub_zero, ih j (i*8 + p), h.1, h.2]
    · exact ih x y

theorem shiftAux_step (im : Image) (i s k : Nat) :
    shiftAux im i s (k+1) =
      if s ≤ 7 - k then copyColAux (shiftAux im i s k) i (7 - k) s 8
      else zeroColAux (shiftAux im i s k) i (7 - k) 8 := rfl

theorem shiftAux_frame (im : Image) (i s : Nat) :
    ∀ k, k ≤ 8 → ∀ x y, (8 ≤ x ∨ y < i*8 ∨ i*8 + 8 ≤ y) →
      shiftAux im i s k x y = im x y := by
  intro k
  induction k with
  | zero => intro _ x y _; rfl
  | succ q ih =>
    intro hk x y hxy
    rw [shiftAux_step]
    have hx : x ≠ 7 - q ∨ y < i*8 ∨ i*8 + 8 ≤ y := by
      rcases hxy with h | h | h
      · exact Or.inl (by omega)
      · exact Or.inr (Or.inl h)
      · exact Or.inr (Or.inr h)
    by_cases hc : s ≤ 7 - q
    · rw [if_pos hc, copyColAux_frame _ i (7 - q) s 8 le_rfl x y hx]
      exact ih (by omega) x y hxy
    · rw [if_neg hc, zeroColAux_frame _ i (7 - q) 8 le_rfl x y hx]
      exact ih (by omega) x y hxy

theorem shiftAux_zero (im : Image) (i : Nat) :
    ∀ k x y, shiftAux im i 0 k x y = im x y := by
  intro k
  induction k with
  | zero => intro x y; rfl
  | succ q ih =>
    intro x y
    rw [shiftAux_step, if_pos (Nat.zero_le _), copyColAux_zero _ i (7 - q) 8 x y]
    exact ih x y

theorem shiftAux_get (im : Image) (i s : Nat) (hs : 1 ≤ s) :
    ∀ k, k ≤ 8 → ∀ c p, c < 8 → p < 8 →
      shiftAux im i s k c (i*8 + p) =
        if 8 - k ≤ c then (if s ≤ c then im (c - s) (i*8 + p) else false)
        else im c (i*8 + p) := by
  intro k
  induction k with
  | zero =>
    intro _ c p hc hp
    rw [if_neg (by omega)]
    rfl
  | succ q ih =>
    intro hk c p hc hp
    rw [shiftAux_step]
    by_cases hcol : s ≤ 7 - q
    · rw [if_pos hcol]
      by_cases hcj : c = 7 - q
      · rw [hcj, copyColAux_get _ i (7 - q) s hs hcol 8 le_rfl p hp]
        rw [ih (by omega) (7 - q - s) p (by omega) hp]
        rw [if_neg (by omega), if_pos (by omega), if_pos (by omega)]
      · rw [copyColAux_frame _ i (7 - q) s 8 le_rfl c (i*8 + p) (Or.inl hcj)]
        rw [ih (by omega) c p hc hp]
        by_cases h2 : 7 - q ≤ c
        · rw [if_pos (show 8 - q ≤ c by omega), if_pos (show 8 - (q+1) ≤ c by omega)]
        · rw [if_neg (show ¬(8 - q ≤ c) by omega), if_neg (show ¬(8 - (q+1) ≤ c) by omega)]
    · rw [if_neg hcol]
      by_cases hcj : c = 7 - q
      · rw [hcj, zeroColAux_get _ i (7 - q) 8 p hp]
        rw [if_pos (by omega), if_neg (by omega)]
      · rw [zeroColAux_frame _ i (7 - q) 8 le_rfl c (i*8 + p) (Or.inl hcj)]
        rw [ih (by omega) c p hc hp]
        by_cases h2 : 7 - q ≤ c
        · rw [if_pos (show 8 - q ≤ c by omega), if_pos (show 8 - (q+1) ≤ c by omega)]
        · rw [if_neg (show ¬(8 - q ≤ c) by omega), if_neg (show ¬(8 - (q+1) ≤ c) by omega)]

theorem shiftRight_frame (im : Image) (i s x y : Nat)
    (h : 8 ≤ x ∨ y < i*8 ∨ i*8 + 8 ≤ y) : shiftRight im i s x y = im x y :=
  shiftAux_frame im i s 8 le_rfl x y h

theorem shiftRight_get (im : Image) (i s x p : Nat) (hx : x < 8) (hp : p < 8) :
    shiftRight im i s x (i*8 + p) =
      if s ≤ x then im (x - s) (i*8 + p) else false := by
  rcases Nat.eq_zero_or_pos s with h0 | h1
  · rw [h0, if_pos (Nat.zero_le _), Nat.sub_zero]
    exact shiftAux_zero im i 8 x (i*8 + p)
  · have h := shiftAux_get im i s h1 8 le_rfl x p hx hp
    rw [if_pos (by omega)] at h
    exact h

/-! Lemmas about the centering pass. -/

theorem centerOne_exception (im : Image) (i : Nat) (h : isException i = true) :
    centerOne im i = im := by
  unfold centerOne
  rw [if_pos h]

theorem centerOne_frame (im : Image) (i x y : Nat)
    (h : 8 ≤ x ∨ y < i*8 ∨ i*8 + 8 ≤ y) : centerOne im i x y = im x y := by
  unfold centerOne
  split
  · rfl
  · exact shiftRight_frame im i _ x y h

theorem wsizeAux_le (im : Image) (i : Nat) : ∀ n, wsizeAux im i n ≤ n := by
  intro n
  induction n with
  | zero => exact Nat.le_refl 0
  | succ q ih =>
    show wsizeAux im i q + (if colInk im i q ≠ 0 then 1 else 0) ≤ q + 1
    split <;> omega

theorem wsize_le (im : Image) (i : Nat) : wsize im i ≤ 8 := wsizeAux_le im i 8

/-- A glyph cell whose 8 × 8 region holds no set pixel. -/
def cellBlank (im : Image) (i : Nat) : Prop :=
  ∀ x, x < 8 → ∀ p, p < 8 → im x (i*8 + p) = false

theorem colInkAux_blank (im : Image) (i j : Nat)
    (h : ∀ p, p < 8 → im j (i*8 + p) = false) :
    ∀ n, n ≤ 8 → colInkAux im i j n = 0 := by
  intro n
  induction n with
  | zero => intro _; rfl
  | succ q ih =>
    intro hn
    show colInkAux im i j q + (if im j (i*8 + q) then 1 else 0) = 0
    rw [ih (by omega), h q (by omega)]
    rfl

theorem wsize_blank (im : Image) (i : Nat) (h : cellBlank im i) : wsize im i = 0 := by
  have hcol : ∀ n, n ≤ 8 → wsizeAux im i n = 0 := by
    intro n
    induction n with
    | zero => intro _; rfl
    | succ q ih =>
      intro hn
      show wsizeAux im i q + (if colInk im i q ≠ 0 then 1 else 0) = 0
      rw [ih (by omega)]
      have : colInk im i q = 0 :=
        colInkAux_blank im i q (fun p hp => h q (by omega) p hp) 8 le_rfl
      rw [this]
      simp
  exact hcol 8 le_rfl

theorem centerOne_eq_self (im : Image) (i : Nat)
    (h : 7 ≤ wsize im i ∨ cellBlank im i) : centerOne im i = im := by
  funext x y
  unfold centerOne
  split
  · rfl
  · rcases h with h7 | hb
    · have hz : (8 - wsize im i) / 2 = 0 := by
        have := wsize_le im i
        omega
      rw [hz]
      exact shiftAux_zero im i 8 x y
    · rw [wsize_blank im i hb]
      show shiftRight im i 4 x y = im x y
      by_cases hx : x < 8
      · by_cases hy : i*8 ≤ y ∧ y < i*8 + 8
        · obtain ⟨hy1, hy2⟩ := hy
          have hdec : y = i*8 + (y - i*8) := by omega
          rw [hdec, shiftRight_get im i 4 x (y - i*8) hx (by omega)]
          by_cases h4 : 4 ≤ x
          · rw [if_pos h4, hb (x - 4) (by omega) (y - i*8) (by omega),
              hb x hx (y - i*8) (by omega)]
          · rw [if_neg h4, hb x hx (y - i*8) (by omega)]
        · exact shiftRight_frame im i 4 x y (by omega)
      · exact shiftRight_frame im i 4 x y (by omega)

/-! Claim C3: idempotence of centering. -/

/-- A canvas whose glyph 0 has ink exactly at columns 0 and 7 of row 0, so its
ink width is 2 and its slack 8 - 2 = 6 is even. -/
def imEvenSlack : Image := fun x y => (x == 0 || x == 7) && y == 0

/-- The canvas obtained from `imEvenSlack` by centering glyph 0 once: the
shift by `(8-2)/2 = 3` moves column 0 to column 3 and pushes column 7 out of
the cell. -/
def imShifted : Image := fun x y => x == 3 && y == 0

theorem centerOne_imEvenSlack : centerOne imEvenSlack 0 = imShifted := by
  have hw : wsize imEvenSlack 0 = 2 := by decide
  have hstep : centerOne imEvenSlack 0 = shiftRight imEvenSlack 0 3 := by
    unfold centerOne
    rw [if_neg (by decide), hw]
  rw [hstep]
  funext x y
  by_cases hx : x < 8
  · by_cases hy : y < 8
    · have hg := shiftRight_get imEvenSlack 0 3 x y hx hy
      simp only [Nat.zero_mul, Nat.zero_add] at hg
      rw [hg]
      interval_cases x <;> simp [imEvenSlack, imShifted]
    · rw [shiftRight_frame imEvenSlack 0 3 x y (by omega)]
      have hy0 : (y == 0) = false := by simp; omega
      simp [imEvenSlack, imShifted, hy0]
  · rw [shiftRight_frame imEvenSlack 0 3 x y (by omega)]
    have hx0 : (x == 0) = false := by simp; omega
    have hx7 : (x == 7) = false := by simp; omega
    have hx3 : (x == 3) = false := by simp; omega
    simp [imEvenSlack, imShifted, hx0, hx7, hx3]

/-- C3 (counterexample): the claim "centering is idempotent on every glyph
with even slack" fails on the concrete canvas `imEvenSlack`: glyph 0 is not
in the exception set and has even slack `8 - wsize = 6`, yet pixel `(3, 0)`
is set after one centering pass and clear after two, because the first shift
pushes the ink of column 7 out of the cell, which changes the measured width
from 2 to 1 and hence the next shift amount. -/
theorem C3_counterexample :
    Even (8 - wsize imEvenSlack 0) ∧ isException 0 = false ∧
    centerOne imEvenSlack 0 3 0 = true ∧
    centerOne (centerOne imEvenSlack 0) 0 3 0 = false := by
  refine ⟨by decide, by decide, ?_, ?_⟩
  · rw [centerOne_imEvenSlack]
    decide
  · rw [centerOne_imEvenSlack]
    have hw : wsize imShifted 0 = 1 := by decide
    have hstep : centerOne imShifted 0 = shiftRight imShifted 0 3 := by
      unfold centerOne
      rw [if_neg (by decide), hw]
    rw [hstep]
    have hg : shiftRight imShifted 0 3 3 0 =
        if 3 ≤ 3 then imShifted (3 - 3) 0 else false :=
      shiftRight_get imShifted 0 3 3 0 (by omega) (by omega)
    rw [hg]
    decide

/-- C3 (amended): centering is idempotent on a glyph precisely in the cases
where one pass does not move it, namely when the computed shift is zero (ink
width at least 7) or when the cell is blank; even slack alone does not
suffice. -/
theorem C3_center_idempotent (im : Image) (i : Nat)
    (h : 7 ≤ wsize im i ∨ cellBlank im i) :
    centerOne (centerOne im i) i = centerOne im i := by
  have he := centerOne_eq_self im i h
  rw [he, he]

/-- Witness for `C3_center_idempotent` at the blank canvas and glyph 0. -/
theorem C3_center_idempotent_witness :
    centerOne (centerOne blankIm 0) 0 = centerOne blankIm 0 :=
  C3_center_idempotent blankIm 0 (Or.inr (fun _ _ _ _ => rfl))

/-! Claim C6: centering a glyph of ink width 4. -/

/-- C6: a non-exception glyph of ink width 4 is shifted by
`spaces = (8-4)/2 = 2`; afterwards column 7 holds the pre-shift column 5 and
columns 0 and 1 are zero-filled. -/
theorem C6_width4_centering (im : Image) (i p : Nat)
    (hex : isException i = false) (hw : wsize im i = 4) (hp : p < 8) :
    centerOne im i 7 (i*8 + p) = im 5 (i*8 + p) ∧
    centerOne im i 0 (i*8 + p) = false ∧
    centerOne im i 1 (i*8 + p) = false := by
  have hstep : centerOne im i = shiftRight im i 2 := by
    unfold centerOne
    rw [if_neg (by simp [hex]), hw]
  rw [hstep]
  refine ⟨?_, ?_, ?_⟩
  · rw [shiftRight_get im i 2 7 p (by omega) hp, if_pos (by omega)]
  · rw [shiftRight_get im i 2 0 p (by omega) hp, if_neg (by omega)]
  · rw [shiftRight_get im i 2 1 p (by omega) hp, if_neg (by omega)]

/-- A canvas whose glyph 0 has ink width 4 (columns 0 to 3 of row 0). -/
def imWidth4 : Image := fun x y => decide (x ≤ 3) && y == 0

/-- Witness for `C6_width4_centering` at `imWidth4`, glyph 0, row 0. -/
theorem C6_width4_centering_witness :
    centerOne imWidth4 0 7 (0*8 + 0) = imWidth4 5 (0*8 + 0) ∧
    centerOne imWidth4 0 0 (0*8 + 0) = false ∧
    centerOne imWidth4 0 1 (0*8 + 0) = false :=
  C6_width4_centering imWidth4 0 0 (by decide) (by decide) (by omega)

/-! Claim C8: the exception set is never shifted. -/

/-- C8: for every input canvas, `centerChar` leaves every pixel of the 8 × 8
cells of the six exception codes 33, 44, 46, 58, 59, 63 unchanged. -/
theorem C8_exceptions_unchanged (im : Image) (e x y : Nat)
    (he : isException e = true) (_hx : x < 8) (hy1 : e*8 ≤ y) (hy2 : y < e*8 + 8) :
    centerChar im x y = im x y := by
  have hall : ∀ k, centerAux im k x y = im x y := by
    intro k
    induction k with
    | zero => rfl
    | succ i ih =>
      show centerOne (centerAux im i) i x y = im x y
      by_cases hie : i = e
      · subst hie
        rw [centerOne_exception _ _ he]
        exact ih
      · rw [centerOne_frame _ i x y (by omega)]
        exact ih
  exact hall nbCharacters

/-- Witness for `C8_exceptions_unchanged`: the cell of code 33 (`!`) in a
blank canvas. -/
theorem C8_exceptions_unchanged_witness :
    centerChar blankIm 0 264 = blankIm 0 264 :=
  C8_exceptions_unchanged blankIm 33 0 264 (by decide) (by omega) (by omega) (by omega)

/-! Claim C9: shifting and centering one glyph is local to its cell. -/

/-- C9: `shiftRight` for glyph `i` (and hence centering glyph `i`) changes no
pixel outside columns 0..7 of rows `i*8 .. i*8+7`: the probe columns and
every other glyph's cell are untouched. -/
theorem C9_shift_frame (im : Image) (i s x y : Nat)
    (h : 8 ≤ x ∨ y < i*8 ∨ i*8 + 8 ≤ y) :
    shiftRight im i s x y = im x y ∧ centerOne im i x y = im x y :=
  ⟨shiftRight_frame im i s x y h, centerOne_frame im i x y h⟩

/-- Witness for `C9_shift_frame`: the probe-column pixel `(8, 0)` under a
shift of glyph 0 of the blank canvas. -/
theorem C9_shift_frame_witness :
    shiftRight blankIm 0 3 8 0 = blankIm 8 0 ∧ centerOne blankIm 0 8 0 = blankIm 8 0 :=
  C9_shift_frame blankIm 0 3 8 0 (Or.inl (by omega))

/-! Lemmas about the size-fitting search. -/

theorem findSizeAux_step (draw : Nat → Nat → Image → Image) (fs : Nat) :
    findSizeAux draw (fs+1) =
      if fs + 1 < minFontSize then none
      else if (renderPass draw fs).2 = true then findSizeAux draw fs
      else some (fs, (renderPass draw fs).1) := rfl

theorem findSizeAux_some (draw : Nat → Nat → Image → Image) :
    ∀ fs sz im, findSizeAux draw fs = some (sz, im) →
      minFontSize - 1 ≤ sz ∧ sz < fs ∧
      (renderPass draw sz).2 = false ∧ im = (renderPass draw sz).1 := by
  intro fs
  induction fs with
  | zero => intro sz im h; exact absurd h (by simp [findSizeAux])
  | succ fs ih =>
    intro sz im h
    rw [findSizeAux_step] at h
    by_cases hlt : fs + 1 < minFontSize
    · rw [if_pos hlt] at h
      exact absurd h (by simp)
    · rw [if_neg hlt] at h
      by_cases hov : (renderPass draw fs).2 = true
      · rw [if_pos hov] at h
        obtain ⟨h1, h2, h3, h4⟩ := ih sz im h
        exact ⟨h1, by omega, h3, h4⟩
      · rw [if_neg hov] at h
        obtain ⟨rfl, rfl⟩ : fs = sz ∧ (renderPass draw fs).1 = im := by
          simpa using h
        have hmin : minFontSize = 4 := rfl
        refine ⟨by omega, by omega, ?_, rfl⟩
        simpa using hov

theorem probeAux_false (im : Image) (i : Nat) :
    ∀ n, probeAux im i n = false → ∀ p, p < n → im 8 (i*8 + p) = false := by
  intro n
  induction n with
  | zero => intro _ p hp; exact absurd hp (by omega)
  | succ q ih =>
    intro h p hp
    have hsplit : probeAux im i q = false ∧ im 8 (i*8 + q) = false := by
      have hstep : probeAux im i (q+1) = (probeAux im i q || im 8 (i*8 + q)) := rfl
      rw [hstep] at h
      exact Bool.or_eq_false_iff.mp h
    by_cases hpq : p = q
    · rw [hpq]; exact hsplit.2
    · exact ih hsplit.1 p (by omega)

theorem probeAux_all_false (im : Image) (i : Nat)
    (h : ∀ p, p < 8 → im 8 (i*8 + p) = false) :
    ∀ n, n ≤ 8 → probeAux im i n = false := by
  intro n
  induction n with
  | zero => intro _; rfl
  | succ q ih =>
    intro hn
    have hstep : probeAux im i (q+1) = (probeAux im i q || im 8 (i*8 + q)) := rfl
    rw [hstep, ih (by omega), h q (by omega)]
    rfl

theorem clearCellAux_frame (im : Image) (i : Nat) :
    ∀ n, n ≤ 8 → ∀ x y, 8 ≤ x → clearCellAux im i n x y = im x y := by
  intro n
  induction n with
  | zero => intro _ x y _; rfl
  | succ q ih =>
    intro hn x y hx
    show zeroColAux (clearCellAux im i q) i q 8 x y = im x y
    rw [zeroColAux_frame _ i q 8 le_rfl x y (Or.inl (by omega))]
    exact ih (by omega) x y hx

theorem clearCell_frame (im : Image) (i x y : Nat) (hx : 8 ≤ x) :
    clearCell im i x y = im x y :=
  clearCellAux_frame im i 8 le_rfl x y hx

theorem renderAux_fst (draw : Nat → Nat → Image → Image) (fs q : Nat) :
    (renderAux draw fs (q+1)).1 = draw fs q (clearCell (renderAux draw fs q).1 q) := rfl

theorem renderAux_snd (draw : Nat → Nat → Image → Image) (fs q : Nat) :
    (renderAux draw fs (q+1)).2 =
      if q ≤ 128 ∧ probeSet (draw fs q (clearCell (renderAux draw fs q).1 q)) q = true
      then true else (renderAux draw fs q).2 := rfl

/-! A family of synthetic fonts for exercising the search. -/

/-- Synthetic renderer: at every size `fs` with `c fs = true`, character 0
paints the probe pixel `(8, 0)` of its own row block; no other character
paints anything.  It only ever writes inside character 0's rows, as a text
renderer drawing at anchor `(0, i*8)` does. -/
def drawCond (c : Nat → Bool) : Nat → Nat → Image → Image :=
  fun fs i im => if c fs && i == 0 then putpixel im 8 0 true else im

theorem drawCond_pos (c : Nat → Bool) (i : Nat) (hi : 0 < i) (fs : Nat) (im : Image) :
    drawCond c fs i im = im := by
  unfold drawCond
  have hz : (i == 0) = false := by simp; omega
  rw [hz, Bool.and_false, if_neg (by simp)]

theorem drawCond_zero (c : Nat → Bool) (fs : Nat) (im : Image) :
    drawCond c fs 0 im = if c fs = true then putpixel im 8 0 true else im := by
  unfold drawCond
  rw [show ((0:Nat) == 0) = true from rfl, Bool.and_true]

theorem renderAux_drawCond (c : Nat → Bool) (fs : Nat) :
    ∀ k, 1 ≤ k →
      (renderAux (drawCond c) fs k).2 = c fs ∧
      ∀ y, (renderAux (drawCond c) fs k).1 8 y = (c fs && y == 0) := by
  intro k
  induction k with
  | zero => intro h; exact absurd h (by omega)
  | succ q ih =>
    intro _
    by_cases hq : 1 ≤ q
    · obtain ⟨ihf, ihim⟩ := ih hq
      have him : ∀ y, (renderAux (drawCond c) fs (q+1)).1 8 y = (c fs && y == 0) := by
        intro y
        rw [renderAux_fst, drawCond_pos c q (by omega),
          clearCell_frame _ q 8 y (by omega)]
        exact ihim y
      refine ⟨?_, him⟩
      rw [renderAux_snd]
      have hprobe :
          probeSet (drawCond c fs q (clearCell (renderAux (drawCond c) fs q).1 q)) q
            = false := by
        apply probeAux_all_false _ q _ 8 le_rfl
        intro p hp
        rw [drawCond_pos c q (by omega), clearCell_frame _ q 8 _ (by omega), ihim]
        have : (q*8 + p == 0) = false := by simp; omega
        rw [this, Bool.and_false]
      rw [hprobe]
      simpa using ihf
    · have hq0 : q = 0 := by omega
      subst hq0
      -- the first iteration draws character 0
      have hclear : ∀ y, (clearCell (renderAux (drawCond c) fs 0).1 0) 8 y = false := by
        intro y
        rw [clearCell_frame _ 0 8 y (by omega)]
        rfl
      have him2 : ∀ y,
          (drawCond c fs 0 (clearCell (renderAux (drawCond c) fs 0).1 0)) 8 y
            = (c fs && y == 0) := by
        intro y
        rw [drawCond_zero]
        cases hc : c fs
        · rw [if_neg (by simp), hclear y, Bool.false_and]
        · rw [if_pos rfl, Bool.true_and, putpixel_eval]
          by_cases hy : y = 0
          · rw [if_pos ⟨rfl, hy⟩]
            simp [hy]
          · rw [if_neg (by intro hcon; exact hy hcon.2), hclear y]
            simp [hy]
      have him : ∀ y, (renderAux (drawCond c) fs 1).1 8 y = (c fs && y == 0) := by
        intro y
        rw [renderAux_fst]
        exact him2 y
      refine ⟨?_, him⟩
      rw [renderAux_snd]
      cases hc : c fs
      · have hprobe :
            probeSet (drawCond c fs 0 (clearCell (renderAux (drawCond c) fs 0).1 0)) 0
              = false := by
          apply probeAux_all_false _ 0 _ 8 le_rfl
          intro p hp
          rw [him2, hc, Bool.false_and]
        rw [hprobe]
        have hbase : (renderAux (drawCond c) fs 0).2 = false := rfl
        simpa using hbase
      · have hprobe :
            probeSet (drawCond c fs 0 (clearCell (renderAux (drawCond c) fs 0).1 0)) 0
              = true := by
          have h0 : (drawCond c fs 0 (clearCell (renderAux (drawCond c) fs 0).1 0)) 8 0
              = true := by
            rw [him2 0, hc]
            rfl
          show probeAux _ 0 8 = true
          have hstep : ∀ m, probeAux (drawCond c fs 0 (clearCell (renderAux (drawCond c) fs 0).1 0)) 0 (m+1)
              = (probeAux (drawCond c fs 0 (clearCell (renderAux (drawCond c) fs 0).1 0)) 0 m
                 || (drawCond c fs 0 (clearCell (renderAux (drawCond c) fs 0).1 0)) 8 (0*8 + m)) := fun m => rfl
          have h1 : probeAux (drawCond c fs 0 (clearCell (renderAux (drawCond c) fs 0).1 0)) 0 1 = true := by
            rw [hstep 0]
            have : (0*8 + 0 : Nat) = 0 := rfl
            rw [this, h0, Bool.or_true]
          have hmono : ∀ m, 1 ≤ m →
              probeAux (drawCond c fs 0 (clearCell (renderAux (drawCond c) fs 0).1 0)) 0 m = true := by
            intro m
            induction m with
            | zero => intro h; exact absurd h (by omega)
            | succ w ihw =>
              intro _
              by_cases hw : 1 ≤ w
              · rw [hstep w, ihw hw, Bool.true_or]
              · have : w = 0 := by omega
                rw [this]
                exact h1
          exact hmono 8 (by omega)
        rw [hprobe]
        simp

theorem renderPass_drawCond (c : Nat → Bool) (fs : Nat) :
    (renderPass (drawCond c) fs).2 = c fs :=
  (renderAux_drawCond c fs nbCharacters (by decide)).1

theorem findSizeAux_recurse (draw : Nat → Nat → Image → Image) (fs : Nat)
    (h4 : ¬ (fs + 1 < minFontSize)) (hov : (renderPass draw fs).2 = true) :
    findSizeAux draw (fs+1) = findSizeAux draw fs := by
  rw [findSizeAux_step, if_neg h4, if_pos hov]

theorem findSizeAux_return (draw : Nat → Nat → Image → Image) (fs : Nat)
    (h4 : ¬ (fs + 1 < minFontSize)) (hov : (renderPass draw fs).2 = false) :
    findSizeAux draw (fs+1) = some (fs, (renderPass draw fs).1) := by
  rw [findSizeAux_step, if_neg h4, if_neg (by simp [hov])]

/-- A synthetic font that is oversized at every candidate size from 12 down
to 4 but fits at size 3. -/
def drawFitsAt3 : Nat → Nat → Image → Image := drawCond (fun fs => decide (4 ≤ fs))

theorem findSize_drawFitsAt3 :
    findSize drawFitsAt3 = some (3, (renderPass drawFitsAt3 3).1) := by
  have hflag : ∀ fs, (renderPass drawFitsAt3 fs).2 = decide (4 ≤ fs) :=
    fun fs => renderPass_drawCond (fun fs => decide (4 ≤ fs)) fs
  have hstep : ∀ fs : Nat, 4 ≤ fs →
      findSizeAux drawFitsAt3 (fs+1) = findSizeAux drawFitsAt3 fs := by
    intro fs h4
    apply findSizeAux_recurse
    · have hm : minFontSize = 4 := rfl
      omega
    · rw [hflag fs]
      exact decide_eq_true h4
  have hterm : findSizeAux drawFitsAt3 4 = some (3, (renderPass drawFitsAt3 3).1) :=
    findSizeAux_return drawFitsAt3 3 (by decide) (by rw [hflag 3]; decide)
  show findSizeAux drawFitsAt3 13 = _
  calc findSizeAux drawFitsAt3 13 = findSizeAux drawFitsAt3 12 := hstep 12 (by omega)
    _ = findSizeAux drawFitsAt3 11 := hstep 11 (by omega)
    _ = findSizeAux drawFitsAt3 10 := hstep 10 (by omega)
    _ = findSizeAux drawFitsAt3 9 := hstep 9 (by omega)
    _ = findSizeAux drawFitsAt3 8 := hstep 8 (by omega)
    _ = findSizeAux drawFitsAt3 7 := hstep 7 (by omega)
    _ = findSizeAux drawFitsAt3 6 := hstep 6 (by omega)
    _ = findSizeAux drawFitsAt3 5 := hstep 5 (by omega)
    _ = findSizeAux drawFitsAt3 4 := hstep 4 (by omega)
    _ = some (3, (renderPass drawFitsAt3 3).1) := hterm

/-- C1 (counterexample): the claim "the returned size lies within
`[minFontSize, maxFontSize - 1]`; the search fails fatally rather than
returning any size below the floor" is false: with the font `drawFitsAt3`
the search returns size 3, which is below `minFontSize = 4`, because the
floor guard tests `fontSize` before the decrement, so the candidate
`minFontSize - 1` is still rendered and can be returned. -/
theorem C1_counterexample :
    (findSize drawFitsAt3).map Prod.fst = some 3 ∧ 3 < minFontSize := by
  refine ⟨?_, by decide⟩
  rw [findSize_drawFitsAt3]
  rfl

/-- C1 (amended): whenever the fitting search succeeds, the returned size
lies within `[minFontSize - 1, maxFontSize - 1]`, i.e. within `[3, 12]`
under the default bounds; the search fails fatally rather than returning
any size below `minFontSize - 1`. -/
theorem C1_size_bounds (draw : Nat → Nat → Image → Image) (sz : Nat) (im : Image)
    (h : findSize draw = some (sz, im)) :
    minFontSize - 1 ≤ sz ∧ sz ≤ maxFontSize - 1 := by
  obtain ⟨h1, h2, -, -⟩ := findSizeAux_some draw maxFontSize sz im h
  have hM : maxFontSize = 13 := rfl
  exact ⟨h1, by omega⟩

/-- A synthetic font that fits immediately: no character ever paints. -/
def drawNothing : Nat → Nat → Image → Image := drawCond (fun _ => false)

theorem findSize_drawNothing :
    findSize drawNothing = some (12, (renderPass drawNothing 12).1) :=
  findSizeAux_return drawNothing 12 (by decide)
    (renderPass_drawCond (fun _ => false) 12)

/-- Witness for `C1_size_bounds`: the font `drawNothing` fits at the first
candidate, size 12. -/
theorem C1_size_bounds_witness :
    minFontSize - 1 ≤ 12 ∧ 12 ≤ maxFontSize - 1 :=
  C1_size_bounds drawNothing 12 (renderPass drawNothing 12).1 findSize_drawNothing

/-- C4: if every candidate size the search ever tests (sizes
`minFontSize - 1 .. maxFontSize - 1`) is oversized, `findSize` reports the
error and exits with a non-zero status (modelled as `none`): no canvas, and
hence no table output, is produced. -/
theorem C4_exhaustion_none (draw : Nat → Nat → Image → Image)
    (h : ∀ s, minFontSize - 1 ≤ s → s ≤ maxFontSize - 1 → (renderPass draw s).2 = true) :
    findSize draw = none := by
  have hm : minFontSize = 4 := rfl
  have hM : maxFontSize = 13 := rfl
  have haux : ∀ fs, fs ≤ maxFontSize → findSizeAux draw fs = none := by
    intro fs
    induction fs with
    | zero => intro _; rfl
    | succ q ih =>
      intro hq
      rw [findSizeAux_step]
      by_cases hlt : q + 1 < minFontSize
      · rw [if_pos hlt]
      · rw [if_neg hlt, if_pos (h q (by omega) (by omega))]
        exact ih (by omega)
  exact haux maxFontSize le_rfl

/-- A synthetic font whose character 0 overflows the probe column at every
size. -/
def drawAlways : Nat → Nat → Image → Image := drawCond (fun _ => true)

/-- Witness for `C4_exhaustion_none` at the always-oversized font. -/
theorem C4_exhaustion_none_witness : findSize drawAlways = none :=
  C4_exhaustion_none drawAlways (fun s _ _ => renderPass_drawCond (fun _ => true) s)

/-- C5: when `findSize` returns a canvas, every probe pixel of every
probe-range character is clear in it: for `i ≤ 128` and row `p < 8`, pixel
`(8, i*8 + p)` is unset.  The renderer hypothesis states the collaborator
contract of a text renderer drawing character `i` at anchor `(0, i*8)`: it
never paints above its own anchor row. -/
theorem C5_probe_clear (draw : Nat → Nat → Image → Image)
    (hdraw : ∀ fs i im x y, y < i*8 → draw fs i im x y = im x y)
    (sz : Nat) (im : Image) (h : findSize draw = some (sz, im))
    (i p : Nat) (hi : i ≤ 128) (hp : p < 8) :
    im 8 (i*8 + p) = false := by
  obtain ⟨-, -, hflag, him⟩ := findSizeAux_some draw maxFontSize sz im h
  have hinv : ∀ k, (renderAux draw sz k).2 = false →
      ∀ i2, i2 < k → i2 ≤ 128 → ∀ p2, p2 < 8 →
        (renderAux draw sz k).1 8 (i2*8 + p2) = false := by
    intro k
    induction k with
    | zero => intro _ i2 h2; exact absurd h2 (by omega)
    | succ q ih =>
      intro hov i2 hi2 hi128 p2 hp2
      rw [renderAux_snd] at hov
      by_cases hcond : q ≤ 128 ∧
          probeSet (draw sz q (clearCell (renderAux draw sz q).1 q)) q = true
      · rw [if_pos hcond] at hov
        exact absurd hov (by simp)
      · rw [if_neg hcond] at hov
        rw [renderAux_fst]
        by_cases hiq : i2 = q
        · subst hiq
          cases hps : probeSet (draw sz i2 (clearCell (renderAux draw sz i2).1 i2)) i2 with
          | false => exact probeAux_false _ i2 8 hps p2 hp2
          | true => exact absurd ⟨hi128, hps⟩ hcond
        · rw [hdraw sz q _ 8 (i2*8 + p2) (by omega),
            clearCell_frame _ q 8 (i2*8 + p2) (by omega)]
          exact ih hov i2 (by omega) hi128 p2 hp2
  rw [him]
  have hN : nbCharacters = 256 := rfl
  exact hinv nbCharacters hflag i (by omega) hi p hp

/-- Witness for `C5_probe_clear`: the canvas returned for `drawNothing` at
probe pixel `(8, 0)`. -/
theorem C5_probe_clear_witness : (renderPass drawNothing 12).1 8 (0*8 + 0) = false :=
  C5_probe_clear drawNothing (fun _ _ _ _ _ _ => rfl) 12 (renderPass drawNothing 12).1
    findSize_drawNothing 0 0 (by omega) (by omega)

/-! Lemmas about the byte packing. -/

theorem convert_getD (pixels : Nat → Nat → Nat) (r j : Nat)
    (hr : r < 8) (hj : j < nbCharacters) :
    ((convert pixels).getD r []).getD j 0 = convertByte pixels r j := by
  unfold convert
  simp [List.getD_eq_getElem?_getD, List.getElem?_map, List.getElem?_range, hr, hj]

theorem byteAux_lt (pixels : Nat → Nat → Nat)
    (hbin : ∀ x y, pixels x y = 0 ∨ pixels x y = 1) (r j : Nat) :
    ∀ n, byteAux pixels r j n < 2^n := by
  intro n
  induction n with
  | zero => exact Nat.zero_lt_one
  | succ q ih =>
    show byteAux pixels r j q ||| (pixels r (j*8 + q) <<< q) < 2^(q+1)
    have hq2 : (2:Nat)^(q+1) = 2^q * 2 := by rw [Nat.pow_succ]
    have hpos : 0 < (2:Nat)^q := Nat.pos_pow_of_pos q (by omega)
    apply Nat.or_lt_two_pow
    · omega
    · rw [Nat.shiftLeft_eq]
      have hple : pixels r (j*8 + q) ≤ 1 := by
        rcases hbin r (j*8 + q) with h | h <;> omega
      have : pixels r (j*8 + q) * 2^q ≤ 1 * 2^q := Nat.mul_le_mul_right _ hple
      omega

theorem byteAux_testBit (pixels : Nat → Nat → Nat)
    (hbin : ∀ x y, pixels x y = 0 ∨ pixels x y = 1) (r j : Nat) :
    ∀ n b, b < n → (byteAux pixels r j n).testBit b = decide (pixels r (j*8 + b) = 1) := by
  intro n
  induction n with
  | zero => intro b hb; exact absurd hb (by omega)
  | succ q ih =>
    intro b hb
    show (byteAux pixels r j q ||| (pixels r (j*8 + q) <<< q)).testBit b = _
    rw [Nat.testBit_or, Nat.testBit_shiftLeft]
    by_cases hbq : b = q
    · subst hbq
      rw [Nat.testBit_lt_two_pow (byteAux_lt pixels hbin r j b)]
      rw [show (decide (b ≥ b)) = true from by simp, Bool.true_and, Nat.sub_self,
        Bool.false_or]
      rcases hbin r (j*8 + b) with h | h <;> rw [h] <;> rfl
    · have hlt : b < q := by omega
      rw [ih b hlt]
      have hge : (decide (b ≥ q)) = false := by simp; omega
      rw [hge, Bool.false_and, Bool.or_false]

/-- C7: for a binary matrix the packed entry is the OR of the row's eight
pixels shifted into bit position, and shifting the entry right by `b` and
taking the parity reconstructs the pixel at column `j*8 + b`: the packing
round-trips. -/
theorem C7_pack_roundtrip (pixels : Nat → Nat → Nat)
    (hbin : ∀ x y, pixels x y = 0 ∨ pixels x y = 1)
    (r j b : Nat) (hr : r < 8) (hj : j < nbCharacters) (hb : b < 8) :
    ((convert pixels).getD r []).getD j 0 =
      (pixels r (j*8 + 0) <<< 0) ||| (pixels r (j*8 + 1) <<< 1) |||
      (pixels r (j*8 + 2) <<< 2) ||| (pixels r (j*8 + 3) <<< 3) |||
      (pixels r (j*8 + 4) <<< 4) ||| (pixels r (j*8 + 5) <<< 5) |||
      (pixels r (j*8 + 6) <<< 6) ||| (pixels r (j*8 + 7) <<< 7) ∧
    (((convert pixels).getD r []).getD j 0 >>> b) % 2 = pixels r (j*8 + b) := by
  rw [convert_getD pixels r j hr hj]
  constructor
  · show byteAux pixels r j 8 = _
    have h8 : byteAux pixels r j 8 =
        ((((((((0 : Nat) ||| (pixels r (j*8 + 0) <<< 0)) ||| (pixels r (j*8 + 1) <<< 1)) |||
        (pixels r (j*8 + 2) <<< 2)) ||| (pixels r (j*8 + 3) <<< 3)) |||
        (pixels r (j*8 + 4) <<< 4)) ||| (pixels r (j*8 + 5) <<< 5)) |||
        (pixels r (j*8 + 6) <<< 6)) ||| (pixels r (j*8 + 7) <<< 7) := rfl
    rw [h8, Nat.zero_or]
  · have ht := byteAux_testBit pixels hbin r j 8 b hb
    rw [Nat.testBit_to_div_mod] at ht
    have hiff := decide_eq_decide.mp ht
    have hmod : byteAux pixels r j 8 / 2^b % 2 < 2 := Nat.mod_lt _ (by omega)
    show (byteAux pixels r j 8 >>> b) % 2 = pixels r (j*8 + b)
    rw [Nat.shiftRight_eq_div_pow]
    rcases hbin r (j*8 + b) with h | h
    · rw [h]
      have hne : ¬(byteAux pixels r j 8 / 2^b % 2 = 1) := by
        intro hx
        have := hiff.mp hx
        omega
      omega
    · rw [h]
      exact hiff.mpr h

/-- The all-ones binary matrix. -/
def pOne : Nat → Nat → Nat := fun _ _ => 1

/-- Witness for `C7_pack_roundtrip` at the all-ones matrix, entry (0, 0),
bit 0. -/
theorem C7_pack_roundtrip_witness :
    ((convert pOne).getD 0 []).getD 0 0 =
      (pOne 0 (0*8 + 0) <<< 0) ||| (pOne 0 (0*8 + 1) <<< 1) |||
      (pOne 0 (0*8 + 2) <<< 2) ||| (pOne 0 (0*8 + 3) <<< 3) |||
      (pOne 0 (0*8 + 4) <<< 4) ||| (pOne 0 (0*8 + 5) <<< 5) |||
      (pOne 0 (0*8 + 6) <<< 6) ||| (pOne 0 (0*8 + 7) <<< 7) ∧
    (((convert pOne).getD 0 []).getD 0 0 >>> 0) % 2 = pOne 0 (0*8 + 0) :=
  C7_pack_roundtrip pOne (fun _ _ => Or.inr rfl) 0 0 0 (by omega) (by decide) (by omega)

/-- C10: for a binary matrix every packed entry fits in one byte, so its
two-hex-digit `0xNN` rendering in `output` is faithful. -/
theorem C10_byte_range (pixels : Nat → Nat → Nat)
    (hbin : ∀ x y, pixels x y = 0 ∨ pixels x y = 1)
    (r j : Nat) (hr : r < 8) (hj : j < nbCharacters) :
    ((convert pixels).getD r []).getD j 0 ≤ 255 := by
  rw [convert_getD pixels r j hr hj]
  have h := byteAux_lt pixels hbin r j 8
  have h256 : (2:Nat)^8 = 256 := rfl
  show byteAux pixels r j 8 ≤ 255
  omega

/-- Witness for `C10_byte_range` at the all-ones matrix, entry (0, 0). -/
theorem C10_byte_range_witness : ((convert pOne).getD 0 []).getD 0 0 ≤ 255 :=
  C10_byte_range pOne (fun _ _ => Or.inr rfl) 0 0 (by omega) (by decide)

/-- C2: the sanitization of `output` applied to `"My Font-1.ttf"` yields
`MyFont`, not `MyFont1`: in the pattern `'[ -:,\?]'` the unescaped hyphen
forms the codepoint range from space to colon, which contains every digit,
so the `1` is stripped along with the space and the hyphen. -/
theorem C2_sanitize_result :
    sanitizeIdent "My Font-1.ttf" = "MyFont" ∧
    sanitizeIdent "My Font-1.ttf" ≠ "MyFont1" := by
  constructor
  · rfl
  · decide
